import Mathlib

/-!
Verification of the pantry-oracle recipe engine against its specification.

The development shallowly embeds the two core subsystems:

* `backend/services/recipe_engine.py` — ingredient normalization
  (`_normalize_ingredient`), fuzzy coverage scoring (`_calculate_coverage`,
  `_ingredients_match`) and the search/rank/paginate pipeline
  (`search_recipes`).
* `backend/ml/recommendation_engine.py` and
  `backend/ml/advanced_ml_engine.py` — the vector-similarity
  recommendation paths (`get_recommendations`, `get_similar_recipes`),
  including the FAISS-accelerated branch and the numpy brute-force branch.

Strings are embedded as `List Char` (ASCII fragment: Python's `str.lower`
is modelled by `Char.toLower`, which agrees with it on ASCII, the alphabet
of every concrete input considered here).  Python floats are idealized as
`ℚ`.  Machine-level floating-point rounding is outside the model; every
property below is about ordering, filtering, truncation and string
rewriting, none of which depend on rounding.
-/

namespace PantryOracle

/-- Strings are modelled as lists of characters. -/
abbrev Str := List Char

/-- Coerce a Lean string literal to the model's string type. -/
def str (s : String) : Str := s.data

/-! ## Ingredient normalizer (`_normalize_ingredient`, recipe_engine.py lines 113-122) -/

/-- Characters matched by Python's `\s` and stripped by `str.strip()`
(ASCII fragment). -/
def isSpaceCh (c : Char) : Bool :=
  c == ' ' || c == '\t' || c == '\n' || c == '\r' || c == '\x0b' || c == '\x0c'

/-- The unit alternatives of the quantity regex
`\d+\.?\d*\s*(cup|tbsp|tsp|oz|lb|g|kg|ml|l)s?`, in source order (the order
matters: Python's regex alternation is first-match). -/
def unitNames : List Str :=
  [str "cup", str "tbsp", str "tsp", str "oz", str "lb", str "g", str "kg",
   str "ml", str "l"]

/-- Try the unit alternatives in order; on success return the remainder of
the string after the matched unit. -/
def dropUnit : List Str → Str → Option Str
  | [], _ => none
  | u :: us, l => if u.isPrefixOf l then some (l.drop u.length) else dropUnit us l

/-- Consume the optional dot of `\.?`. -/
def dotTail : Str → Str
  | '.' :: t => t
  | l => l

/-- Consume the optional trailing `s` of `s?`. -/
def sTail : Str → Str
  | 's' :: t => t
  | l => l

/-- The position reached after matching `\d+\.?\d*\s*` greedily at the
head of `l` (the caller separately checks that the leading digit run is
non-empty). -/
def quantTail (l : Str) : Str :=
  ((dotTail (l.dropWhile Char.isDigit)).dropWhile Char.isDigit).dropWhile isSpaceCh

/-- Match the quantity pattern `\d+\.?\d*\s*(cup|...|l)s?` at the head of
`l`; on success return the remainder after the match.  The greedy
left-to-right reading is faithful: every backtracking alternative of the
pattern fails whenever this one does, because shrinking `\d+`, `\.?`,
`\d*` or `\s*` leaves a digit, a dot or a space where a unit letter is
required. -/
def tryQuant (l : Str) : Option Str :=
  if (l.takeWhile Char.isDigit).isEmpty then none
  else
    match dropUnit unitNames (quantTail l) with
    | none => none
    | some r5 => some (sTail r5)

/-- One pass of `re.sub(quantityPattern, '', s)`: scan left to right,
deleting each non-overlapping match and resuming after it.  The fuel is
the string length; each match consumes at least one character, so the
initial fuel is always sufficient. -/
def subQuantGo : Nat → Str → Str
  | 0, _ => []
  | _ + 1, [] => []
  | n + 1, c :: cs =>
    match tryQuant (c :: cs) with
    | some rest => subQuantGo n rest
    | none => c :: subQuantGo n cs

/-- `re.sub(r'\d+\.?\d*\s*(cup|tbsp|tsp|oz|lb|g|kg|ml|l)s?', '', s)`. -/
def subQuant (l : Str) : Str := subQuantGo l.length l

/-- Replace every maximal whitespace run by a single `' '` — the effect of
`re.sub(r'\s+', ' ', s)`.  The flag records whether the previous character
belonged to a run that already emitted its space. -/
def collapseAux : Bool → Str → Str
  | _, [] => []
  | b, c :: cs =>
    if isSpaceCh c then
      if b then collapseAux true cs else ' ' :: collapseAux true cs
    else c :: collapseAux false cs

/-- `re.sub(r'\s+', ' ', s)`. -/
def collapseWS (l : Str) : Str := collapseAux false l

/-- Python `str.strip()`: drop leading and trailing whitespace. -/
def stripWS (l : Str) : Str :=
  ((l.dropWhile isSpaceCh).reverse.dropWhile isSpaceCh).reverse

/-- Structural well-formedness of whitespace after a collapse pass: no
two adjacent whitespace characters, and every whitespace character is a
plain space.  (Proof device for idempotence reasoning about
`collapseWS` and `stripWS`.) -/
def wsOK : Str → Bool
  | [] => true
  | [c] => !(isSpaceCh c) || c == ' '
  | c :: d :: t => (!(isSpaceCh c) || (c == ' ' && !(isSpaceCh d))) && wsOK (d :: t)

/-- `_normalize_ingredient`: lower-case and strip, delete quantity/unit
patterns, collapse whitespace runs, strip again.  (The source's guard
`if not ingredient: return ""` is subsumed: the pipeline maps the empty
string to itself.) -/
def normalizeIngredient (l : Str) : Str :=
  stripWS (collapseWS (subQuant (stripWS (l.map Char.toLower))))

/-! ## Coverage scorer (`_calculate_coverage`, `_ingredients_match`,
recipe_engine.py lines 209-246) -/

/-- Python's `a in b` on strings: `a` occurs contiguously in `b`. -/
def isSubstr (a b : Str) : Bool :=
  (List.range (b.length + 1)).any (fun i => a.isPrefixOf (b.drop i))

/-- `_ingredients_match`: symmetric substring containment. -/
def ingredientsMatch (a b : Str) : Bool := isSubstr a b || isSubstr b a

/-- Whether some pantry entry matches the recipe ingredient (the source's
inner loop with early break). -/
def hasPantryMatch (pantry : List Str) (ing : Str) : Bool :=
  pantry.any (fun p => ingredientsMatch ing p)

/-- `_calculate_coverage`: empty recipe list is trivially covered;
otherwise count matched ingredients and collect the unmatched ones in
recipe order.  (The source also builds two unused local sets `pantry_set`
and `recipe_set`; they do not affect the result and are omitted.) -/
def calculateCoverage (pantry : List Str) (recipeIngs : List Str) : ℚ × List Str :=
  if recipeIngs.isEmpty then (1, [])
  else
    ((recipeIngs.countP (hasPantryMatch pantry) : ℚ) / (recipeIngs.length : ℚ),
     recipeIngs.filter (fun ing => !(hasPantryMatch pantry ing)))

/-! ## Search pipeline (`search_recipes`, recipe_engine.py lines 124-207) -/

/-- The fields of a corpus row that the search pipeline reads.  The
remaining columns (name, nutrition, steps, tags) are carried through to
the result dictionary unchanged and play no role in filtering, scoring,
ordering or pagination. -/
structure Recipe where
  id : Int
  ingredients : List Str
  minutes : Int
deriving DecidableEq

/-- The fields of a result entry that the claims concern: identity,
coverage, missing list (of normalized ingredient strings) and cook time. -/
structure ScoredRecipe where
  id : Int
  coverage : ℚ
  missing : List Str
  minutes : Int
deriving DecidableEq

/-- The filter guard `if max_time and row.get('minutes', 0) > max_time`.
Python truthiness: `None` and `0` are falsy, every other integer
(including negatives) is truthy. -/
def timeExcluded (maxTime : Option Int) (minutes : Int) : Bool :=
  match maxTime with
  | none => false
  | some t => decide (t ≠ 0 ∧ t < minutes)

/-- Score one corpus row: normalize its ingredients and compute coverage
against the (already normalized) pantry. -/
def scoreRecipe (pantryN : List Str) (r : Recipe) : ScoredRecipe :=
  let res := calculateCoverage pantryN (r.ingredients.map normalizeIngredient)
  ⟨r.id, res.1, res.2, r.minutes⟩

/-- The corpus scan of `search_recipes`: score every row, dropping the
rows excluded by the `max_time` guard (the `diet` parameter is accepted by
the source but never read). -/
def scanScored (corpus : List Recipe) (pantryN : List Str) (maxTime : Option Int) :
    List ScoredRecipe :=
  corpus.filterMap fun r =>
    if timeExcluded maxTime r.minutes then none else some (scoreRecipe pantryN r)

/-- Insertion step of the stable descending sort: the incoming element
goes in front of the first element with coverage less than or equal to its
own, i.e. after every earlier element of strictly greater or equal
coverage that was already placed. -/
def insertCov (x : ScoredRecipe) : List ScoredRecipe → List ScoredRecipe
  | [] => [x]
  | y :: ys => if y.coverage ≤ x.coverage then x :: y :: ys else y :: insertCov x ys

/-- `recipes_with_scores.sort(key=coverage, reverse=True)` — Python's sort
is stable, and with `reverse=True` equal-key elements still keep their
original relative order. -/
def sortCovDesc (l : List ScoredRecipe) : List ScoredRecipe := l.foldr insertCov []

/-- The one exception Python can raise inside `search_recipes`:
`total_pages = (total_results + limit - 1) // limit` divides by zero when
`limit = 0`. -/
inductive PyErr where
  | zeroDivision
deriving DecidableEq

/-- The result dictionary of `search_recipes`. -/
structure SearchResult where
  recipes : List ScoredRecipe
  totalResults : Nat
  page : Int
  totalPages : Int
deriving DecidableEq

/-- Python list slicing `l[a:b]` with arbitrary integer bounds: negative
indices count from the end, then both bounds clamp to `[0, len(l)]`. -/
def pySlice (l : List ScoredRecipe) (a b : Int) : List ScoredRecipe :=
  let n : Int := l.length
  let a0 : Nat := (max (if a < 0 then a + n else a) 0).toNat
  let b0 : Nat := (max (if b < 0 then b + n else b) 0).toNat
  (l.drop a0).take (b0 - a0)

/-- `search_recipes`: empty-corpus early return, normalize the pantry,
scan and score, sort by coverage descending, paginate.  There is no
validation of `page` or `limit`; `limit = 0` raises `ZeroDivisionError`
when `total_pages` is computed, and `//` is Python floor division
(`Int.fdiv`). -/
def searchRecipes (corpus : List Recipe) (pantry : List Str) (maxTime : Option Int)
    (_diet : Option Str) (page limit : Int) : Except PyErr SearchResult :=
  if corpus.isEmpty then .ok ⟨[], 0, page, 0⟩
  else
    let pN := pantry.map normalizeIngredient
    let sorted := sortCovDesc (scanScored corpus pN maxTime)
    let T : Nat := sorted.length
    if limit = 0 then .error .zeroDivision
    else
      let totalPages := Int.fdiv ((T : Int) + limit - 1) limit
      let s := (page - 1) * limit
      .ok ⟨pySlice sorted s (s + limit), T, page, totalPages⟩

/-! ## Vector-similarity engines (recommendation_engine.py,
advanced_ml_engine.py)

Both engines score a query against every stored recipe vector.  The
stored vectors are L2-normalized (`faiss.normalize_L2` in
`_build_faiss_index`, and sklearn's TF-IDF rows are L2-normalized by
default), and the query vector is normalized the same way, so the
sklearn `cosine_similarity` of the numpy paths and the inner product of
`faiss.IndexFlatIP` compute the same number.  The model therefore holds
the vectors as given (post-normalization; the normalization itself is
performed by the external libraries over floats) and scores with the
inner product. -/

/-- Inner product of two vectors. -/
def dot (u v : List ℚ) : ℚ := (List.zipWith (fun a b => a * b) u v).sum

/-- A trained model: recipe ids in row order plus the stored (normalized)
recipe vectors; `recipe_vectors` row count equals `recipe_ids` length. -/
structure VecModel where
  recipeIds : List Int
  vectors : List (List ℚ)
  isTrained : Bool

/-- Row score lookup (out-of-range reads never occur on the index lists
produced below, which are permutations of `range`). -/
def qGet (s : List ℚ) (i : Nat) : ℚ := s.getD i 0

/-- Recipe id of a row. -/
def idGet (ids : List Int) (i : Nat) : Int := ids.getD i 0

/-- Candidate order of `np.argsort(similarities)[::-1]`: row `i` precedes
row `j` when its score is strictly larger, or the scores are equal and
`i` is the larger row index.  (numpy's argsort is stable on the small
arrays at issue — its introsort falls back to insertion sort — so the
subsequent reversal puts equal-score rows in descending row order.  No
recipe-id comparison occurs anywhere.)  `faiss.IndexFlatIP` is an exact
index whose tie order is unspecified; the model gives it the same order,
which is the spec's "consistent tie-break" reading. -/
def idxBeforeB (s : List ℚ) (i j : Nat) : Bool :=
  decide (qGet s j < qGet s i) || (decide (qGet s i = qGet s j) && decide (j < i))

/-- Insert a row index into an already ordered index list. -/
def insertIdx (s : List ℚ) (i : Nat) : List Nat → List Nat
  | [] => [i]
  | j :: js => if idxBeforeB s i j then i :: j :: js else j :: insertIdx s i js

/-- `np.argsort(s)[::-1]` as a sorted list of row indices. -/
def argsortDesc (s : List ℚ) : List Nat :=
  (List.range s.length).foldr (insertIdx s) []

/-- Scores of the query against every stored row. -/
def simsTo (m : VecModel) (q : List ℚ) : List ℚ :=
  m.vectors.map (fun v => dot q v)

/-- Turn row indices into the `(recipe_id, score)` pairs the loops read. -/
def candidateList (m : VecModel) (s : List ℚ) (idxs : List Nat) : List (Int × ℚ) :=
  idxs.map (fun i => (idGet m.recipeIds i, qGet s i))

/-- The skip conditions shared by both branches of
`AdvancedMLEngine.get_recommendations`: `if exclude_ids and recipe_id in
exclude_ids: continue` and `if score < min_score: continue`. -/
def keepRec (excl : List Int) (minScore : ℚ) (p : Int × ℚ) : Bool :=
  !(!excl.isEmpty && excl.contains p.1) && !(decide (p.2 < minScore))

/-- The collection loop of `get_recommendations`: walk the candidates,
skip the filtered ones, append, and break once
`len(recommendations) >= n` — the length test runs after the append, so
`n = 0` still yields one element when a candidate survives. -/
def collectRecs (excl : List Int) (minScore : ℚ) (n : Nat) :
    List (Int × ℚ) → List (Int × ℚ)
  | [] => []
  | p :: ps =>
    if keepRec excl minScore p then
      p :: (if n ≤ 1 then [] else collectRecs excl minScore (n - 1) ps)
    else collectRecs excl minScore n ps

/-- The FAISS branch of `AdvancedMLEngine.get_recommendations` (lines
135-160): retrieve only `k = min(n*3, len(recipe_ids))` nearest
candidates from the exact inner-product index, then filter and truncate.
Since `k` never exceeds the row count, the `-1` padding guard
`if idx < 0 or idx >= len(self.recipe_ids)` never fires and is omitted. -/
def advRecsFaiss (m : VecModel) (q : List ℚ) (n : Nat) (excl : List Int)
    (minScore : ℚ) : List (Int × ℚ) :=
  if !m.isTrained then []
  else
    let s := simsTo m q
    let k := min (n * 3) m.recipeIds.length
    collectRecs excl minScore n (candidateList m s ((argsortDesc s).take k))

/-- The numpy fallback branch of `AdvancedMLEngine.get_recommendations`
(lines 161-185): rank every row, then filter and truncate. -/
def advRecsBrute (m : VecModel) (q : List ℚ) (n : Nat) (excl : List Int)
    (minScore : ℚ) : List (Int × ℚ) :=
  if !m.isTrained then []
  else
    let s := simsTo m q
    collectRecs excl minScore n (candidateList m s (argsortDesc s))

/-- Python `list.index`, returning `none` where the source catches
`ValueError`. -/
def pyIndexOf (a : Int) : List Int → Option Nat
  | [] => none
  | b :: bs => if b = a then some 0 else (pyIndexOf a bs).map (fun i => i + 1)

/-- Stored vector of a row. -/
def rowVec (m : VecModel) (i : Nat) : List ℚ := m.vectors.getD i []

/-- `MLRecommendationEngine.get_similar_recipes` (lines 126-167): an
untrained model and an unknown `recipe_id` both return the empty list;
otherwise rank all rows against the recipe's own vector and return
positions `1 .. n` of the descending order
(`np.argsort(similarities)[::-1][1:n_similar+1]`). -/
def getSimilarRecipes (m : VecModel) (rid : Int) (nSimilar : Nat) : List (Int × ℚ) :=
  if !m.isTrained then []
  else
    match pyIndexOf rid m.recipeIds with
    | none => []
    | some ridx =>
      let s := simsTo m (rowVec m ridx)
      candidateList m s (((argsortDesc s).drop 1).take nSimilar)

/-- The collection loop of the FAISS branch of
`AdvancedMLEngine.get_similar_recipes`: skip the row equal to the query
row (`if idx == recipe_idx`), append, break at `n`. -/
def collectSim (m : VecModel) (s : List ℚ) (ridx : Nat) (n : Nat) :
    List Nat → List (Int × ℚ)
  | [] => []
  | i :: is =>
    if i = ridx then collectSim m s ridx n is
    else (idGet m.recipeIds i, qGet s i) ::
      (if n ≤ 1 then [] else collectSim m s ridx (n - 1) is)

/-- `AdvancedMLEngine.get_similar_recipes` (lines 187-220, FAISS branch):
unknown ids fall to the `ValueError` handler and return `[]`; otherwise
query the exact index for `n+1` nearest and collect, skipping the query
row itself. -/
def advSimilarFaiss (m : VecModel) (rid : Int) (nSimilar : Nat) : List (Int × ℚ) :=
  if !m.isTrained then []
  else
    match pyIndexOf rid m.recipeIds with
    | none => []
    | some ridx =>
      let s := simsTo m (rowVec m ridx)
      collectSim m s ridx nSimilar ((argsortDesc s).take (nSimilar + 1))

/-- Position of the first occurrence of `a` (the lists at issue are
duplicate-free permutations of `range`). -/
def posOf (a : Nat) : List Nat → Nat
  | [] => 0
  | b :: bs => if b = a then 0 else posOf a bs + 1

/-! ## General helper lemmas -/

/-- Taking `n` of a `k`-element front is the same as taking `n` when
`n ≤ k`. -/
theorem take_take_of_le {α : Type} (n k : Nat) (l : List α) (h : n ≤ k) :
    (l.take k).take n = l.take n := by
  induction l generalizing n k with
  | nil => simp
  | cons x xs ih =>
    cases k with
    | zero => cases n with
      | zero => simp
      | succ m => omega
    | succ k0 =>
      cases n with
      | zero => simp
      | succ m => simpa using ih m k0 (by omega)

/-- The empty string is a substring of every string. -/
theorem isSubstr_nil_left (b : Str) : isSubstr [] b = true := by
  unfold isSubstr
  refine List.any_eq_true.mpr ⟨0, ?_, ?_⟩
  · exact List.mem_range.mpr (by omega)
  · simp [List.isPrefixOf]

/-! ## Claim C8 — empty recipe ingredient list -/

/-- C8.  For every pantry, including the empty pantry, scoring a recipe
with an empty ingredient list yields coverage exactly 1 and an empty
missing list: `_calculate_coverage` returns `(1.0, [])` before any
matching is attempted. -/
theorem C8_empty_recipe_full_coverage (pantry : List Str) :
    calculateCoverage pantry [] = (1, []) := rfl

/-! ## Claim C7 — coverage is monotonic in the pantry -/

/-- A recipe ingredient matched by some pantry entry is still matched
after the pantry is extended. -/
theorem hasPantryMatch_append (pantry : List Str) (x ing : Str)
    (h : hasPantryMatch pantry ing = true) :
    hasPantryMatch (pantry ++ [x]) ing = true := by
  unfold hasPantryMatch at h ⊢
  rw [List.any_append, h, Bool.true_or]

/-- C7.  Adding an ingredient to the pantry never decreases the coverage
computed for a fixed recipe ingredient list: every previously matched
ingredient stays matched, so the matched count — and with it the coverage
fraction — can only grow. -/
theorem C7_coverage_monotone (pantry : List Str) (x : Str) (ings : List Str) :
    (calculateCoverage pantry ings).1 ≤ (calculateCoverage (pantry ++ [x]) ings).1 := by
  cases ings with
  | nil => simp [calculateCoverage]
  | cons i is =>
    unfold calculateCoverage
    simp only [List.isEmpty_cons]
    have hcount : (i :: is).countP (hasPantryMatch pantry) ≤
        (i :: is).countP (hasPantryMatch (pantry ++ [x])) :=
      List.countP_mono_left (fun a _ ha => hasPantryMatch_append pantry x a ha)
    have hlen : (0 : ℚ) < ((i :: is).length : ℚ) := by
      exact_mod_cast Nat.succ_pos is.length
    exact (div_le_div_iff_of_pos_right hlen).mpr (by exact_mod_cast hcount)

/-! ## Claim C10 — an empty normalized pantry entry matches everything -/

/-- C10.  If some pantry ingredient normalizes to the empty string (for
example `"2 cups"`, which the quantity pattern deletes entirely), then for
every recipe with a non-empty ingredient list the computed coverage is 1
and the missing list is empty: the symmetric substring test accepts the
empty string as a substring of every ingredient. -/
theorem C10_empty_pantry_entry_matches_all (pantry : List Str) (p0 : Str)
    (ings : List Str) (hnorm : normalizeIngredient p0 = [])
    (hmem : p0 ∈ pantry) (hne : ings ≠ []) :
    calculateCoverage (pantry.map normalizeIngredient) ings = (1, []) := by
  have hnil : ([] : Str) ∈ pantry.map normalizeIngredient := by
    rw [← hnorm]; exact List.mem_map_of_mem normalizeIngredient hmem
  have hall : ∀ ing ∈ ings, hasPantryMatch (pantry.map normalizeIngredient) ing = true := by
    intro ing _
    unfold hasPantryMatch
    refine List.any_eq_true.mpr ⟨[], hnil, ?_⟩
    unfold ingredientsMatch
    rw [isSubstr_nil_left, Bool.or_true]
  cases ings with
  | nil => exact absurd rfl hne
  | cons i is =>
    unfold calculateCoverage
    simp only [List.isEmpty_cons, Bool.false_eq_true, if_false, Prod.mk.injEq]
    refine ⟨?_, ?_⟩
    · rw [List.countP_eq_length.mpr hall]
      have h0 : (0 : ℚ) < ((i :: is).length : ℚ) := by
        exact_mod_cast Nat.succ_pos is.length
      exact div_self h0.ne'
    · refine List.filter_eq_nil_iff.mpr ?_
      intro a ha
      rw [hall a ha]
      simp

/-- Witness for C10 at a concrete input: the pantry entry `"2 cups"`
normalizes to the empty string and forces full coverage of `["flour"]`. -/
theorem C10_empty_pantry_entry_matches_all_witness :
    calculateCoverage ([str "2 cups"].map normalizeIngredient) [str "flour"] = (1, []) :=
  C10_empty_pantry_entry_matches_all [str "2 cups"] (str "2 cups") [str "flour"]
    (by decide) (by simp) (by simp)

/-! ## Claim C2 — the `max_time` filter and Python truthiness -/

/-- C2 counterexample.  With `max_time = 0` supplied, the recipe with
id 1 and cook time `5 > 0` is NOT excluded from the scan: the guard
`if max_time and ...` treats `0` as falsy and skips the filter entirely,
so the claim fails for the explicitly included value `max_time = 0`. -/
theorem C2_max_time_zero_counterexample :
    List.map (fun s => (s.id, s.minutes)) (scanScored [⟨1, [str "x"], 5⟩] [] (some 0)) =
      [(1, 5)] := by decide

/-- C2 amended.  When `max_time` is supplied and nonzero, the scan keeps
exactly the recipes with `time_minutes ≤ max_time`: every recipe whose
time exceeds `max_time` is excluded, and no other recipe is excluded by
this filter.  (`max_time = 0` is falsy in Python and disables the filter.) -/
theorem C2_max_time_filter (corpus : List Recipe) (pantryN : List Str)
    (t : Int) (ht : t ≠ 0) :
    scanScored corpus pantryN (some t) =
      (corpus.filter (fun r => decide (r.minutes ≤ t))).map (scoreRecipe pantryN) := by
  induction corpus with
  | nil => rfl
  | cons r rs ih =>
    rw [scanScored, List.filterMap_cons] at *
    by_cases h : t < r.minutes
    · have hex : timeExcluded (some t) r.minutes = true := by
        simp [timeExcluded, ht, h]
      rw [hex]
      have hf : (decide (r.minutes ≤ t)) = false := by
        simp; omega
      simp only [List.filter_cons, hf, Bool.false_eq_true, if_false]
      exact ih
    · have hex : timeExcluded (some t) r.minutes = false := by
        simp [timeExcluded]; omega
      rw [hex]
      have hf : (decide (r.minutes ≤ t)) = true := by simp; omega
      simp only [Bool.false_eq_true, if_false, List.filter_cons, hf, if_true,
        List.map_cons]
      rw [ih]

/-- Witness for the amended C2 at a concrete nonzero `max_time`: with
`max_time = 3`, the 5-minute recipe is excluded and the 2-minute recipe
survives. -/
theorem C2_max_time_filter_witness :
    scanScored [⟨1, [str "x"], 5⟩, ⟨2, [str "y"], 2⟩] [] (some 3) =
      (([⟨1, [str "x"], 5⟩, ⟨2, [str "y"], 2⟩] : List Recipe).filter
        (fun r => decide (r.minutes ≤ 3))).map (scoreRecipe []) :=
  C2_max_time_filter [⟨1, [str "x"], 5⟩, ⟨2, [str "y"], 2⟩] [] 3 (by decide)

/-! ## Claim C1 — pagination validation -/

/-- C1 counterexample.  A call with `page = 0 < 1` (and `limit = 20`)
returns an ordinary successful result page — empty recipe list,
`total_results = 1`, `page = 0`, `total_pages = 1` — rather than any
failure: no `InvalidQuery` rejection exists anywhere in the code path. -/
theorem C1_page_zero_counterexample :
    searchRecipes [⟨1, [str "x"], 5⟩] [] none none 0 20 =
      .ok ⟨[], 1, 0, 1⟩ := rfl

/-- C1 amended.  `search_recipes` performs no pagination validation at
all: a call with `page < 1` and `limit ≥ 1` returns an ordinary
successful result (for `page ≤ 0` the slice is simply empty or wraps
around), while a call with `limit = 0` on a non-empty corpus raises
`ZeroDivisionError` when `total_pages` is computed — after the corpus has
already been scanned — and no `InvalidQuery` signal exists. -/
theorem C1_no_pagination_validation (corpus : List Recipe) (pantry : List Str)
    (maxTime : Option Int) (diet : Option Str) (page limit : Int) :
    (page < 1 → 1 ≤ limit →
      ∃ res, searchRecipes corpus pantry maxTime diet page limit = .ok res) ∧
    (limit = 0 → corpus ≠ [] →
      searchRecipes corpus pantry maxTime diet page limit = .error .zeroDivision) := by
  constructor
  · intro _ hlim
    unfold searchRecipes
    by_cases hc : corpus.isEmpty
    · exact ⟨_, by rw [if_pos hc]⟩
    · rw [if_neg hc, if_neg (by omega)]
      exact ⟨_, rfl⟩
  · intro hlim hc
    unfold searchRecipes
    rw [if_neg (by simpa [List.isEmpty_iff] using hc), if_pos hlim]

/-- Witness for the amended C1: with one recipe in the corpus, `page = 0,
limit = 20` succeeds and `page = 1, limit = 0` raises the division
error. -/
theorem C1_no_pagination_validation_witness :
    (∃ res, searchRecipes [⟨1, [str "x"], 5⟩] [] none none 0 20 = .ok res) ∧
    searchRecipes [⟨1, [str "x"], 5⟩] [] none none 1 0 = .error .zeroDivision :=
  ⟨(C1_no_pagination_validation [⟨1, [str "x"], 5⟩] [] none none 0 20).1
      (by omega) (by omega),
   (C1_no_pagination_validation [⟨1, [str "x"], 5⟩] [] none none 1 0).2
      rfl (by simp)⟩

/-! ## Claim C3 — unknown recipe id in `get_similar_recipes` -/

/-- An element absent from a list is never found by Python's
`list.index`. -/
theorem pyIndexOf_eq_none (a : Int) (l : List Int) (h : a ∉ l) :
    pyIndexOf a l = none := by
  induction l with
  | nil => rfl
  | cons b bs ih =>
    unfold pyIndexOf
    rw [if_neg (by intro hba; exact h (hba ▸ List.mem_cons_self b bs)),
      ih (fun hm => h (List.mem_cons_of_mem b hm))]
    rfl

/-- C3 counterexample.  On the trained one-recipe model with id 1, the
unknown id 99 yields `[]` from both engines, and the successful query for
the known id 1 also yields `[]` (its only neighbor is the recipe itself,
which is excluded) — so the unknown-id outcome is NOT distinguishable
from a successful query with zero results, and no `NotFound` signal
exists. -/
theorem C3_unknown_id_counterexample :
    getSimilarRecipes ⟨[1], [[1]], true⟩ 99 5 = [] ∧
    advSimilarFaiss ⟨[1], [[1]], true⟩ 99 5 = [] ∧
    getSimilarRecipes ⟨[1], [[1]], true⟩ 1 5 = [] := by
  refine ⟨rfl, rfl, ?_⟩
  norm_num [getSimilarRecipes, pyIndexOf, simsTo, rowVec, dot, argsortDesc,
    insertIdx, idxBeforeB, qGet, candidateList, List.range_succ]

/-- C3 amended.  For every trained model and every recipe id unknown to
it, both `get_similar_recipes` implementations catch the `ValueError`
from `list.index` and return the empty list — the same value an ordinary
zero-result query returns — instead of a distinguishable `NotFound`
failure. -/
theorem C3_unknown_id_returns_empty (m : VecModel) (rid : Int) (n : Nat)
    (ht : m.isTrained = true) (hmem : rid ∉ m.recipeIds) :
    getSimilarRecipes m rid n = [] ∧ advSimilarFaiss m rid n = [] := by
  unfold getSimilarRecipes advSimilarFaiss
  rw [ht, pyIndexOf_eq_none rid m.recipeIds hmem]
  simp

/-- Witness for the amended C3 at the concrete trained model with ids
`[1, 2]` and unknown id 7. -/
theorem C3_unknown_id_returns_empty_witness :
    getSimilarRecipes ⟨[1, 2], [[1, 0], [0, 1]], true⟩ 7 3 = [] ∧
    advSimilarFaiss ⟨[1, 2], [[1, 0], [0, 1]], true⟩ 7 3 = [] :=
  C3_unknown_id_returns_empty ⟨[1, 2], [[1, 0], [0, 1]], true⟩ 7 3 rfl (by decide)

/-! ## Claim C9 — descending stable sort by coverage -/

/-- Everything in an insertion result is the inserted element or an
element of the original list. -/
theorem mem_insertCov {z x : ScoredRecipe} {l : List ScoredRecipe}
    (h : z ∈ insertCov x l) : z = x ∨ z ∈ l := by
  induction l with
  | nil => simpa [insertCov] using h
  | cons y ys ih =>
    unfold insertCov at h
    by_cases hc : y.coverage ≤ x.coverage
    · rw [if_pos hc] at h
      rcases List.mem_cons.mp h with h | h
      · exact Or.inl h
      · exact Or.inr h
    · rw [if_neg hc] at h
      rcases List.mem_cons.mp h with h | h
      · exact Or.inr (h ▸ List.mem_cons_self y ys)
      · rcases ih h with h1 | h1
        · exact Or.inl h1
        · exact Or.inr (List.mem_cons_of_mem y h1)

/-- Insertion preserves the descending-coverage pairwise invariant. -/
theorem pairwise_insertCov (x : ScoredRecipe) (l : List ScoredRecipe)
    (h : l.Pairwise (fun a b => b.coverage ≤ a.coverage)) :
    (insertCov x l).Pairwise (fun a b => b.coverage ≤ a.coverage) := by
  induction l with
  | nil => simp [insertCov]
  | cons y ys ih =>
    rw [List.pairwise_cons] at h
    unfold insertCov
    by_cases hc : y.coverage ≤ x.coverage
    · rw [if_pos hc, List.pairwise_cons]
      refine ⟨?_, List.pairwise_cons.mpr h⟩
      intro z hz
      rcases List.mem_cons.mp hz with hz | hz
      · exact hz ▸ hc
      · exact le_trans (h.1 z hz) hc
    · rw [if_neg hc, List.pairwise_cons]
      refine ⟨?_, ih h.2⟩
      intro z hz
      rcases mem_insertCov hz with h1 | h1
      · exact h1 ▸ le_of_lt (lt_of_not_le hc)
      · exact h.1 z h1

/-- Inserting an element whose coverage is `c` prepends it to the
`c`-coverage fiber: every element it passes over has strictly greater
coverage. -/
theorem filter_insertCov_pos (x : ScoredRecipe) (l : List ScoredRecipe) (c : ℚ)
    (hx : x.coverage = c) :
    (insertCov x l).filter (fun s => decide (s.coverage = c)) =
      x :: l.filter (fun s => decide (s.coverage = c)) := by
  induction l with
  | nil => simp [insertCov, hx]
  | cons y ys ih =>
    unfold insertCov
    by_cases hc : y.coverage ≤ x.coverage
    · rw [if_pos hc, List.filter_cons, List.filter_cons]
      simp [hx]
    · rw [if_neg hc]
      have hy : y.coverage ≠ c := by
        intro hyc
        exact hc (le_of_eq (hyc.trans hx.symm))
      rw [List.filter_cons, List.filter_cons]
      simp only [hy, decide_eq_true_eq, if_false, Bool.false_eq_true]
      exact ih

/-- Inserting an element whose coverage is not `c` leaves the
`c`-coverage fiber unchanged. -/
theorem filter_insertCov_neg (x : ScoredRecipe) (l : List ScoredRecipe) (c : ℚ)
    (hx : x.coverage ≠ c) :
    (insertCov x l).filter (fun s => decide (s.coverage = c)) =
      l.filter (fun s => decide (s.coverage = c)) := by
  induction l with
  | nil => simp [insertCov, hx]
  | cons y ys ih =>
    unfold insertCov
    by_cases hc : y.coverage ≤ x.coverage
    · rw [if_pos hc, List.filter_cons]
      simp only [hx, decide_eq_true_eq, if_false, Bool.false_eq_true]
    · rw [if_neg hc, List.filter_cons, List.filter_cons]
      by_cases hy : y.coverage = c
      · simp [hy, ih]
      · simp only [hy, decide_eq_true_eq, if_false, Bool.false_eq_true, ih]

/-- C9.  The sort applied by `search_recipes` orders the scanned recipes
by coverage descending and is stable: for every coverage value `c`, the
recipes of coverage `c` appear in the sorted list in exactly their corpus
scan order.  (Every result page is a contiguous slice of this sorted
list, so the property transfers to the paginated `recipes` field.) -/
theorem C9_sort_desc_stable (corpus : List Recipe) (pantryN : List Str)
    (maxTime : Option Int) (c : ℚ) :
    (sortCovDesc (scanScored corpus pantryN maxTime)).Pairwise
      (fun a b => b.coverage ≤ a.coverage) ∧
    (sortCovDesc (scanScored corpus pantryN maxTime)).filter
        (fun s => decide (s.coverage = c)) =
      (scanScored corpus pantryN maxTime).filter
        (fun s => decide (s.coverage = c)) := by
  generalize scanScored corpus pantryN maxTime = l
  induction l with
  | nil => exact ⟨List.Pairwise.nil, rfl⟩
  | cons x xs ih =>
    have hs : sortCovDesc (x :: xs) = insertCov x (sortCovDesc xs) := rfl
    constructor
    · rw [hs]
      exact pairwise_insertCov x (sortCovDesc xs) ih.1
    · rw [hs, List.filter_cons]
      by_cases hx : x.coverage = c
      · rw [filter_insertCov_pos x (sortCovDesc xs) c hx, ih.2]
        simp [hx]
      · rw [filter_insertCov_neg x (sortCovDesc xs) c hx, ih.2]
        simp [hx]

/-! ## Ordering lemmas for the similarity candidate ranking -/

/-- The candidate order never puts a row before itself. -/
theorem idxBeforeB_irrefl (s : List ℚ) (i : Nat) : idxBeforeB s i i = false := by
  simp [idxBeforeB]

/-- The candidate order is transitive. -/
theorem idxBeforeB_trans {s : List ℚ} {i j k : Nat}
    (h1 : idxBeforeB s i j = true) (h2 : idxBeforeB s j k = true) :
    idxBeforeB s i k = true := by
  simp only [idxBeforeB, Bool.or_eq_true, Bool.and_eq_true, decide_eq_true_eq] at *
  rcases h1 with h1 | ⟨h1e, h1n⟩
  · rcases h2 with h2 | ⟨h2e, h2n⟩
    · exact Or.inl (lt_trans h2 h1)
    · exact Or.inl (h2e ▸ h1)
  · rcases h2 with h2 | ⟨h2e, h2n⟩
    · exact Or.inl (lt_of_lt_of_le h2 (le_of_eq h1e.symm))
    · exact Or.inr ⟨h1e.trans h2e, lt_trans h2n h1n⟩

/-- The candidate order is total on distinct rows. -/
theorem idxBeforeB_total {s : List ℚ} {i j : Nat} (hne : i ≠ j)
    (h : idxBeforeB s i j = false) : idxBeforeB s j i = true := by
  simp only [idxBeforeB, Bool.or_eq_false_iff, Bool.and_eq_false_iff,
    decide_eq_false_iff_not, Bool.or_eq_true, Bool.and_eq_true,
    decide_eq_true_eq] at *
  rcases lt_trichotomy (qGet s i) (qGet s j) with hq | hq | hq
  · exact Or.inl hq
  · refine Or.inr ⟨hq.symm, ?_⟩
    rcases h.2 with hc | hc
    · exact absurd hq hc
    · omega
  · exact absurd hq h.1

/-- The candidate order is asymmetric. -/
theorem idxBeforeB_asymm {s : List ℚ} {i j : Nat}
    (h1 : idxBeforeB s i j = true) (h2 : idxBeforeB s j i = true) : False := by
  simp only [idxBeforeB, Bool.or_eq_true, Bool.and_eq_true, decide_eq_true_eq] at *
  rcases h1 with h1 | ⟨h1e, h1n⟩ <;> rcases h2 with h2 | ⟨h2e, h2n⟩
  · exact absurd (lt_trans h1 h2) (lt_irrefl _)
  · exact absurd (h2e ▸ h1) (lt_irrefl _)
  · exact absurd (h1e ▸ h2) (lt_irrefl _)
  · omega

/-- Membership after insertion. -/
theorem mem_insertIdx {s : List ℚ} {z i : Nat} {l : List Nat}
    (h : z ∈ insertIdx s i l) : z = i ∨ z ∈ l := by
  induction l with
  | nil => simpa [insertIdx] using h
  | cons j js ih =>
    unfold insertIdx at h
    by_cases hc : idxBeforeB s i j = true
    · rw [if_pos hc] at h
      rcases List.mem_cons.mp h with h | h
      · exact Or.inl h
      · exact Or.inr h
    · rw [if_neg hc] at h
      rcases List.mem_cons.mp h with h | h
      · exact Or.inr (h ▸ List.mem_cons_self j js)
      · rcases ih h with h1 | h1
        · exact Or.inl h1
        · exact Or.inr (List.mem_cons_of_mem j h1)

/-- The inserted element is a member of the insertion result. -/
theorem self_mem_insertIdx (s : List ℚ) (i : Nat) (l : List Nat) :
    i ∈ insertIdx s i l := by
  induction l with
  | nil => simp [insertIdx]
  | cons j js ih =>
    unfold insertIdx
    by_cases hc : idxBeforeB s i j = true
    · rw [if_pos hc]; exact List.mem_cons_self i _
    · rw [if_neg hc]; exact List.mem_cons_of_mem j ih

/-- Old members survive insertion. -/
theorem mem_insertIdx_of_mem (s : List ℚ) (i : Nat) {z : Nat} {l : List Nat}
    (h : z ∈ l) : z ∈ insertIdx s i l := by
  induction l with
  | nil => cases h
  | cons j js ih =>
    unfold insertIdx
    by_cases hc : idxBeforeB s i j = true
    · rw [if_pos hc]; exact List.mem_cons_of_mem i h
    · rw [if_neg hc]
      rcases List.mem_cons.mp h with h | h
      · exact h ▸ List.mem_cons_self j _
      · exact List.mem_cons_of_mem j (ih h)

/-- Insertion grows the length by one. -/
theorem length_insertIdx (s : List ℚ) (i : Nat) (l : List Nat) :
    (insertIdx s i l).length = l.length + 1 := by
  induction l with
  | nil => rfl
  | cons j js ih =>
    unfold insertIdx
    by_cases hc : idxBeforeB s i j = true
    · rw [if_pos hc]; rfl
    · rw [if_neg hc]; simp [ih]

/-- Insertion of a fresh row preserves the pairwise ordering invariant. -/
theorem pairwise_insertIdx {s : List ℚ} {i : Nat} {l : List Nat}
    (hfresh : ∀ j ∈ l, i ≠ j)
    (h : l.Pairwise (fun a b => idxBeforeB s a b = true)) :
    (insertIdx s i l).Pairwise (fun a b => idxBeforeB s a b = true) := by
  induction l with
  | nil => simp [insertIdx]
  | cons j js ih =>
    rw [List.pairwise_cons] at h
    unfold insertIdx
    by_cases hc : idxBeforeB s i j = true
    · rw [if_pos hc, List.pairwise_cons]
      refine ⟨?_, List.pairwise_cons.mpr h⟩
      intro z hz
      rcases List.mem_cons.mp hz with hz | hz
      · exact hz ▸ hc
      · exact idxBeforeB_trans hc (h.1 z hz)
    · rw [if_neg hc, List.pairwise_cons]
      have hji : idxBeforeB s j i = true :=
        idxBeforeB_total (hfresh j (List.mem_cons_self j js)) (by simpa using hc)
      refine ⟨?_, ih (fun z hz => hfresh z (List.mem_cons_of_mem j hz)) h.2⟩
      intro z hz
      rcases mem_insertIdx hz with h1 | h1
      · exact h1 ▸ hji
      · exact h.1 z h1

/-- Folding insertion over a duplicate-free index list produces a list
with the same members, ordered by the candidate order. -/
theorem foldr_insertIdx_props (s : List ℚ) (l : List Nat) (hnd : l.Nodup) :
    (∀ z, z ∈ l.foldr (insertIdx s) [] ↔ z ∈ l) ∧
    (l.foldr (insertIdx s) []).Pairwise (fun a b => idxBeforeB s a b = true) := by
  induction l with
  | nil => exact ⟨by simp, List.Pairwise.nil⟩
  | cons i t ih =>
    rw [List.nodup_cons] at hnd
    obtain ⟨hmem, hpw⟩ := ih hnd.2
    rw [List.foldr_cons]
    constructor
    · intro z
      constructor
      · intro hz
        rcases mem_insertIdx hz with h1 | h1
        · exact h1 ▸ List.mem_cons_self i t
        · exact List.mem_cons_of_mem i ((hmem z).mp h1)
      · intro hz
        rcases List.mem_cons.mp hz with h1 | h1
        · exact h1 ▸ self_mem_insertIdx s i _
        · exact mem_insertIdx_of_mem s i ((hmem z).mpr h1)
    · refine pairwise_insertIdx ?_ hpw
      intro j hj hij
      exact hnd.1 (hij ▸ (hmem j).mp hj)

/-- The ranked index list is ordered by the candidate order. -/
theorem argsortDesc_pairwise (s : List ℚ) :
    (argsortDesc s).Pairwise (fun a b => idxBeforeB s a b = true) :=
  (foldr_insertIdx_props s (List.range s.length) (List.nodup_range _)).2

/-- Every valid row appears in the ranked index list. -/
theorem mem_argsortDesc {s : List ℚ} {i : Nat} (h : i < s.length) :
    i ∈ argsortDesc s :=
  ((foldr_insertIdx_props s (List.range s.length) (List.nodup_range _)).1 i).mpr
    (List.mem_range.mpr h)

/-- Folding insertion preserves the number of ranked rows. -/
theorem foldr_insertIdx_length (s : List ℚ) (l : List Nat) :
    (l.foldr (insertIdx s) []).length = l.length := by
  induction l with
  | nil => rfl
  | cons i t ih => rw [List.foldr_cons, length_insertIdx, ih, List.length_cons]

/-- The ranked index list ranks every row exactly once. -/
theorem argsortDesc_length (s : List ℚ) : (argsortDesc s).length = s.length := by
  unfold argsortDesc
  rw [foldr_insertIdx_length, List.length_range]

/-- In a list ordered by the (asymmetric) candidate order, an element
that precedes another in the order occupies a strictly earlier
position. -/
theorem posOf_lt_posOf {s : List ℚ} {l : List Nat}
    (hp : l.Pairwise (fun a b => idxBeforeB s a b = true)) {a b : Nat}
    (ha : a ∈ l) (hb : b ∈ l) (hab : idxBeforeB s a b = true) :
    posOf a l < posOf b l := by
  induction l with
  | nil => cases ha
  | cons c cs ih =>
    rw [List.pairwise_cons] at hp
    have hne : a ≠ b := by
      intro hco
      rw [hco, idxBeforeB_irrefl] at hab
      cases hab
    by_cases hca : c = a
    · have hbc : b ≠ c := fun hbc => hne ((hbc ▸ hca).symm)
      unfold posOf
      rw [if_pos hca, if_neg (fun hcb => hbc hcb.symm)]
      omega
    · by_cases hcb : c = b
      · have hacs : a ∈ cs := by
          rcases List.mem_cons.mp ha with h1 | h1
          · exact absurd h1.symm hca
          · exact h1
        exact absurd (hp.1 a hacs) (fun hca2 => idxBeforeB_asymm hab (hcb ▸ hca2))
      · have hacs : a ∈ cs := by
          rcases List.mem_cons.mp ha with h1 | h1
          · exact absurd h1.symm hca
          · exact h1
        have hbcs : b ∈ cs := by
          rcases List.mem_cons.mp hb with h1 | h1
          · exact absurd h1.symm hcb
          · exact h1
        unfold posOf
        rw [if_neg hca, if_neg hcb]
        exact Nat.succ_lt_succ (ih hp.2 hacs hbcs)

/-! ## Claim C5 — tie-breaking in the candidate ranking -/

/-- C5 counterexample.  On a trained model with ids `[1, 2]` and
identical stored vectors, the query scores tie at 1, and the numpy
brute-force path returns `[(2, 1), (1, 1)]`: the recipe with the LARGER
id comes first, because `np.argsort(...)[::-1]` leaves equal scores in
descending row order and no id-based tie-break exists anywhere in the
code. -/
theorem C5_tie_break_counterexample :
    advRecsBrute ⟨[1, 2], [[1, 0], [1, 0]], true⟩ [1, 0] 2 [] 0 =
      [(2, 1), (1, 1)] := by
  norm_num [advRecsBrute, simsTo, dot, argsortDesc, insertIdx, idxBeforeB, qGet,
    candidateList, collectRecs, keepRec, idGet, List.range_succ]

/-- C5 amended.  In the candidate ranking `np.argsort(similarities)[::-1]`
shared by the engines' nearest-neighbor paths, two rows with equal
similarity score appear in DESCENDING row order: the later corpus row
comes first (numpy's stable ascending argsort followed by reversal), and
no recipe-id tie-break exists. -/
theorem C5_ties_descending_row_order (s : List ℚ) (i j : Nat) (hij : i < j)
    (hj : j < s.length) (heq : qGet s i = qGet s j) :
    posOf j (argsortDesc s) < posOf i (argsortDesc s) := by
  have hji : idxBeforeB s j i = true := by
    simp [idxBeforeB, heq, hij]
  exact posOf_lt_posOf (argsortDesc_pairwise s)
    (mem_argsortDesc hj) (mem_argsortDesc (lt_trans hij hj)) hji

/-- Witness for the amended C5: with the tied score list `[1, 1]`, row 1
is ranked strictly before row 0. -/
theorem C5_ties_descending_row_order_witness :
    posOf 1 (argsortDesc [(1 : ℚ), 1]) < posOf 0 (argsortDesc [(1 : ℚ), 1]) :=
  C5_ties_descending_row_order [(1 : ℚ), 1] 0 1 (by omega) (by simp) (by norm_num [qGet])

/-! ## Claim C4 — FAISS branch vs brute-force branch -/

/-- With no exclusions, the shared skip test reduces to the minimum-score
test alone. -/
theorem keepRec_nil_excl (minS : ℚ) :
    keepRec [] minS = fun p => !decide (p.2 < minS) := rfl

/-- For `n ≥ 1`, the collection loop returns the first `n` candidates
that pass the skip tests. -/
theorem collectRecs_eq_take_filter (excl : List Int) (minS : ℚ)
    (l : List (Int × ℚ)) (n : Nat) (hn : 1 ≤ n) :
    collectRecs excl minS n l = (l.filter (keepRec excl minS)).take n := by
  induction l generalizing n with
  | nil => simp [collectRecs]
  | cons p ps ih =>
    obtain ⟨m, rfl⟩ : ∃ m, n = m + 1 := ⟨n - 1, by omega⟩
    unfold collectRecs
    by_cases hk : keepRec excl minS p = true
    · rw [if_pos hk, List.filter_cons, if_pos hk, List.take_succ_cons]
      cases m with
      | zero => simp
      | succ m0 =>
        rw [if_neg (by omega)]
        have hih := ih (m0 + 1) (by omega)
        simpa using hih
    · rw [if_neg hk, List.filter_cons, if_neg (by simpa using hk)]
      exact ih (m + 1) (by omega)

/-- On a list sorted by score descending, filtering by a minimum score is
the same as taking the passing front: once a score falls below the
threshold, every later score does too. -/
theorem filter_min_eq_takeWhile (minS : ℚ) (L : List (Int × ℚ))
    (h : L.Pairwise (fun a b => b.2 ≤ a.2)) :
    L.filter (fun p => !decide (p.2 < minS)) =
      L.takeWhile (fun p => !decide (p.2 < minS)) := by
  induction L with
  | nil => rfl
  | cons x xs ih =>
    rw [List.pairwise_cons] at h
    rw [List.filter_cons, List.takeWhile_cons]
    by_cases hx : (!decide (x.2 < minS)) = true
    · rw [if_pos hx, if_pos hx, ih h.2]
    · rw [if_neg hx, if_neg hx]
      refine List.filter_eq_nil_iff.mpr ?_
      intro y hy
      have hxlt : x.2 < minS := by simpa using hx
      have : y.2 < minS := lt_of_le_of_lt (h.1 y hy) hxlt
      simp [this]

/-- Taking `n` survivors of a `k`-truncated sorted candidate list equals
taking `n` survivors of the full sorted list, provided the window is at
least as large as the request (or covers the whole list). -/
theorem take_filter_window (minS : ℚ) (L : List (Int × ℚ))
    (h : L.Pairwise (fun a b => b.2 ≤ a.2)) (n k : Nat)
    (hnk : n ≤ k ∨ L.length ≤ k) :
    ((L.take k).filter (fun p => !decide (p.2 < minS))).take n =
      (L.filter (fun p => !decide (p.2 < minS))).take n := by
  rcases hnk with h1 | h1
  · rw [filter_min_eq_takeWhile minS (L.take k) (h.sublist (List.take_sublist k L)),
      filter_min_eq_takeWhile minS L h, ← List.take_takeWhile,
      take_take_of_le n k _ h1]
  · rw [List.take_of_length_le h1]

/-- C4 counterexample.  On a trained 4-recipe model with distinct scores
and `n = 1`, excluding the ids of the top three rows empties the FAISS
branch — its window holds only `k = min(3·1, 4) = 3` candidates, all
excluded — while the brute-force branch correctly returns the fourth
recipe.  The two branches disagree, refuting the claim for arbitrary
exclusion sets. -/
theorem C4_exclusion_window_counterexample :
    advRecsFaiss ⟨[1, 2, 3, 4], [[1,0,0,0], [0,1,0,0], [0,0,1,0], [0,0,0,1]], true⟩
        [6/7, 3/7, 2/7, 0] 1 [1, 2, 3] 0 = [] ∧
    advRecsBrute ⟨[1, 2, 3, 4], [[1,0,0,0], [0,1,0,0], [0,0,1,0], [0,0,0,1]], true⟩
        [6/7, 3/7, 2/7, 0] 1 [1, 2, 3] 0 = [(4, 0)] := by
  constructor <;>
    norm_num [advRecsFaiss, advRecsBrute, simsTo, dot, argsortDesc, insertIdx,
      idxBeforeB, qGet, candidateList, collectRecs, keepRec, idGet, List.range_succ]

/-- C4 amended.  With an empty exclusion set (and `n ≥ 1`, on a model
whose id list and vector matrix agree in length, as training guarantees),
the FAISS branch and the brute-force branch of `get_recommendations`
return the same ordered `(recipe_id, score)` sequence for every query,
every count and every `min_score` — both rank by the same scores with the
same tie-break, and without exclusions the `k = min(3n, N)` retrieval
window can never starve the result.  With exclusions the window can, as
the counterexample shows. -/
theorem C4_branches_agree_no_exclusions (m : VecModel) (q : List ℚ) (n : Nat)
    (minS : ℚ) (hn : 1 ≤ n) (hlen : m.recipeIds.length = m.vectors.length) :
    advRecsFaiss m q n [] minS = advRecsBrute m q n [] minS := by
  unfold advRecsFaiss advRecsBrute
  cases ht : m.isTrained with
  | false => rfl
  | true =>
    simp only [ht, Bool.not_true, Bool.false_eq_true, if_false]
    have hcand : candidateList m (simsTo m q)
        ((argsortDesc (simsTo m q)).take (min (n * 3) m.recipeIds.length)) =
        (candidateList m (simsTo m q) (argsortDesc (simsTo m q))).take
          (min (n * 3) m.recipeIds.length) := by
      unfold candidateList
      rw [List.map_take]
    rw [hcand, collectRecs_eq_take_filter _ _ _ n hn,
      collectRecs_eq_take_filter _ _ _ n hn, keepRec_nil_excl]
    have hpw : (candidateList m (simsTo m q) (argsortDesc (simsTo m q))).Pairwise
        (fun a b => b.2 ≤ a.2) := by
      refine List.Pairwise.map _ ?_ (argsortDesc_pairwise (simsTo m q))
      intro a b hab
      simp only [idxBeforeB, Bool.or_eq_true, Bool.and_eq_true,
        decide_eq_true_eq] at hab
      rcases hab with hab | ⟨hab, _⟩
      · exact le_of_lt hab
      · exact le_of_eq hab.symm
    refine take_filter_window minS _ hpw n _ ?_
    have hclen : (candidateList m (simsTo m q) (argsortDesc (simsTo m q))).length =
        m.recipeIds.length := by
      unfold candidateList
      rw [List.length_map, argsortDesc_length]
      unfold simsTo
      rw [List.length_map, hlen]
    rw [hclen]
    omega

/-- Witness for the amended C4 on the concrete 4-recipe model with
`n = 1` and no exclusions. -/
theorem C4_branches_agree_no_exclusions_witness :
    advRecsFaiss ⟨[1, 2, 3, 4], [[1,0,0,0], [0,1,0,0], [0,0,1,0], [0,0,0,1]], true⟩
        [6/7, 3/7, 2/7, 0] 1 [] 0 =
    advRecsBrute ⟨[1, 2, 3, 4], [[1,0,0,0], [0,1,0,0], [0,0,1,0], [0,0,0,1]], true⟩
        [6/7, 3/7, 2/7, 0] 1 [] 0 :=
  C4_branches_agree_no_exclusions
    ⟨[1, 2, 3, 4], [[1,0,0,0], [0,1,0,0], [0,0,1,0], [0,0,0,1]], true⟩
    [6/7, 3/7, 2/7, 0] 1 0 (by omega) (by decide)

/-! ## Claim C6 — idempotence of `_normalize_ingredient` -/

/-- Normal form of `Char.toLower` for case analysis. -/
theorem toLower_eq (c : Char) :
    c.toLower = if 65 ≤ c.toNat ∧ c.toNat ≤ 90 then Char.ofNat (c.toNat + 32) else c := rfl

/-- Lower-casing a character twice equals lower-casing it once. -/
theorem toLower_toLower (c : Char) : c.toLower.toLower = c.toLower := by
  by_cases h : 65 ≤ c.toNat ∧ c.toNat ≤ 90
  · rw [toLower_eq c, if_pos h]
    obtain ⟨ha, hb⟩ := h
    obtain ⟨n, hn⟩ : ∃ n, c.toNat = n := ⟨c.toNat, rfl⟩
    rw [hn] at ha hb ⊢
    interval_cases n <;> decide
  · rw [toLower_eq c, if_neg h, toLower_eq c, if_neg h]

/-- Lower-casing never creates a digit. -/
theorem toLower_isDigit (c : Char) (hd : c.isDigit = false) :
    c.toLower.isDigit = false := by
  by_cases h : 65 ≤ c.toNat ∧ c.toNat ≤ 90
  · rw [toLower_eq c, if_pos h]
    obtain ⟨ha, hb⟩ := h
    obtain ⟨n, hn⟩ : ∃ n, c.toNat = n := ⟨c.toNat, rfl⟩
    rw [hn] at ha hb ⊢
    interval_cases n <;> decide
  · rw [toLower_eq c, if_neg h]
    exact hd

/-- Mapping a function that fixes every member is the identity. -/
theorem map_id_of_fix {f : Char → Char} (l : Str) (h : ∀ c ∈ l, f c = c) :
    l.map f = l := by
  induction l with
  | nil => rfl
  | cons c cs ih =>
    rw [List.map_cons, h c (List.mem_cons_self c cs),
      ih (fun d hd => h d (List.mem_cons_of_mem c hd))]

/-- Members of the optional-dot tail are members of the input. -/
theorem mem_dotTail {c : Char} {l : Str} (h : c ∈ dotTail l) : c ∈ l := by
  unfold dotTail at h
  split at h
  · exact List.mem_cons_of_mem _ h
  · exact h

/-- Members of the optional-s tail are members of the input. -/
theorem mem_sTail {c : Char} {l : Str} (h : c ∈ sTail l) : c ∈ l := by
  unfold sTail at h
  split at h
  · exact List.mem_cons_of_mem _ h
  · exact h

/-- Members of a successful unit match remainder are members of the
input. -/
theorem mem_dropUnit {us : List Str} {l r : Str} (h : dropUnit us l = some r)
    {c : Char} (hc : c ∈ r) : c ∈ l := by
  induction us with
  | nil => cases h
  | cons u us ih =>
    unfold dropUnit at h
    by_cases hp : u.isPrefixOf l = true
    · rw [if_pos hp] at h
      cases h
      exact (List.drop_subset u.length l) hc
    · rw [if_neg hp] at h
      exact ih h

/-- Members of the post-quantity position are members of the input. -/
theorem mem_quantTail {c : Char} {l : Str} (h : c ∈ quantTail l) : c ∈ l := by
  unfold quantTail at h
  exact (List.dropWhile_sublist _).subset
    (mem_dotTail ((List.dropWhile_sublist _).subset
      ((List.dropWhile_sublist _).subset h)))

/-- Members of a successful quantity-pattern remainder are members of the
input. -/
theorem mem_tryQuant {l r : Str} (h : tryQuant l = some r) {c : Char}
    (hc : c ∈ r) : c ∈ l := by
  unfold tryQuant at h
  by_cases he : (l.takeWhile Char.isDigit).isEmpty = true
  · rw [if_pos he] at h
    cases h
  · rw [if_neg he] at h
    cases hd : dropUnit unitNames (quantTail l) with
    | none => rw [hd] at h; cases h
    | some r5 =>
      rw [hd] at h
      cases h
      exact mem_quantTail (mem_dropUnit hd (mem_sTail hc))

/-- The one-pass substitution only ever emits characters of its input. -/
theorem mem_subQuantGo {c : Char} : ∀ (n : Nat) (l : Str),
    c ∈ subQuantGo n l → c ∈ l := by
  intro n
  induction n with
  | zero => intro l h; simp [subQuantGo] at h
  | succ m ih =>
    intro l h
    cases l with
    | nil => simp [subQuantGo] at h
    | cons x xs =>
      rw [subQuantGo] at h
      cases htq : tryQuant (x :: xs) with
      | some rest =>
        rw [htq] at h
        exact mem_tryQuant htq (ih rest h)
      | none =>
        rw [htq] at h
        rcases List.mem_cons.mp h with h1 | h1
        · exact h1 ▸ List.mem_cons_self x xs
        · exact List.mem_cons_of_mem x (ih xs h1)

/-- The collapse pass only ever emits spaces or characters of its input. -/
theorem mem_collapseAux {c : Char} : ∀ (b : Bool) (l : Str),
    c ∈ collapseAux b l → c = ' ' ∨ c ∈ l := by
  intro b l
  induction l generalizing b with
  | nil => intro h; simp [collapseAux] at h
  | cons d ds ih =>
    intro h
    rw [collapseAux] at h
    by_cases hsp : isSpaceCh d = true
    · rw [if_pos hsp] at h
      cases b with
      | true =>
        rcases ih true h with h1 | h1
        · exact Or.inl h1
        · exact Or.inr (List.mem_cons_of_mem d h1)
      | false =>
        rcases List.mem_cons.mp h with h1 | h1
        · exact Or.inl h1
        · rcases ih true h1 with h2 | h2
          · exact Or.inl h2
          · exact Or.inr (List.mem_cons_of_mem d h2)
    · rw [if_neg hsp] at h
      rcases List.mem_cons.mp h with h1 | h1
      · exact Or.inr (h1 ▸ List.mem_cons_self d ds)
      · rcases ih false h1 with h2 | h2
        · exact Or.inl h2
        · exact Or.inr (List.mem_cons_of_mem d h2)

/-- Stripping only removes characters. -/
theorem mem_stripWS {c : Char} {l : Str} (h : c ∈ stripWS l) : c ∈ l := by
  unfold stripWS at h
  rw [List.mem_reverse] at h
  have h1 := (List.dropWhile_sublist _).subset h
  rw [List.mem_reverse] at h1
  exact (List.dropWhile_sublist _).subset h1

/-- A quantity match needs a leading digit. -/
theorem tryQuant_none_of_head {c : Char} (cs : Str) (h : c.isDigit = false) :
    tryQuant (c :: cs) = none := by
  simp [tryQuant, List.takeWhile_cons, h]

/-- On digit-free input the substitution pass is the identity (given
enough fuel). -/
theorem subQuantGo_of_no_digit : ∀ (l : Str) (n : Nat),
    (∀ c ∈ l, c.isDigit = false) → l.length ≤ n → subQuantGo n l = l := by
  intro l
  induction l with
  | nil => intro n _ _; cases n <;> rfl
  | cons c cs ih =>
    intro n hd hn
    obtain ⟨m, rfl⟩ : ∃ m, n = m + 1 := ⟨n - 1, by simp at hn; omega⟩
    rw [subQuantGo, tryQuant_none_of_head cs (hd c (List.mem_cons_self c cs)),
      ih m (fun d hdm => hd d (List.mem_cons_of_mem c hdm)) (by simp at hn; omega)]

/-- On digit-free input `re.sub(quantityPattern, '', ·)` is the
identity. -/
theorem subQuant_of_no_digit (l : Str) (h : ∀ c ∈ l, c.isDigit = false) :
    subQuant l = l :=
  subQuantGo_of_no_digit l l.length h (le_refl _)

/-- The head of a `dropWhile` result fails the predicate. -/
theorem dropWhile_head_false {p : Char → Bool} {c : Char} {t : Str} :
    ∀ {l : Str}, l.dropWhile p = c :: t → p c = false := by
  intro l
  induction l with
  | nil => intro h; cases h
  | cons x xs ih =>
    intro h
    rw [List.dropWhile_cons] at h
    by_cases hx : p x = true
    · rw [if_pos hx] at h
      exact ih h
    · rw [if_neg hx] at h
      cases h
      simpa using hx

/-- Dropping a while-prefix twice equals dropping it once. -/
theorem dropWhile_dropWhile (p : Char → Bool) (l : Str) :
    (l.dropWhile p).dropWhile p = l.dropWhile p := by
  cases hx : l.dropWhile p with
  | nil => rfl
  | cons c t =>
    rw [List.dropWhile_cons, if_neg (by simp [dropWhile_head_false hx])]

/-- The leading-whitespace drop splits as the stripped core plus the
trailing whitespace run. -/
theorem stripWS_decomp (l : Str) :
    ∃ R, l.dropWhile isSpaceCh = stripWS l ++ R := by
  refine ⟨((l.dropWhile isSpaceCh).reverse.takeWhile isSpaceCh).reverse, ?_⟩
  conv_lhs =>
    rw [← List.reverse_reverse (l.dropWhile isSpaceCh),
      ← List.takeWhile_append_dropWhile isSpaceCh (l.dropWhile isSpaceCh).reverse,
      List.reverse_append]
  rfl

/-- Python's `strip` is idempotent. -/
theorem stripWS_idem (l : Str) : stripWS (stripWS l) = stripWS l := by
  obtain ⟨R, hdec⟩ := stripWS_decomp l
  have hv1 : (stripWS l).dropWhile isSpaceCh = stripWS l := by
    cases hv : stripWS l with
    | nil => rfl
    | cons c t =>
      have hu : l.dropWhile isSpaceCh = c :: (t ++ R) := by
        rw [hdec, hv]
        simp
      rw [List.dropWhile_cons, if_neg (by simp [dropWhile_head_false hu])]
  have hv2 : (stripWS l).reverse.dropWhile isSpaceCh = (stripWS l).reverse := by
    have hrv : (stripWS l).reverse = (l.dropWhile isSpaceCh).reverse.dropWhile isSpaceCh := by
      unfold stripWS
      rw [List.reverse_reverse]
    rw [hrv, dropWhile_dropWhile]
  show ((((stripWS l).dropWhile isSpaceCh).reverse).dropWhile isSpaceCh).reverse = stripWS l
  rw [hv1, hv2, List.reverse_reverse]

/-- The tail of a whitespace-well-formed string is whitespace-well-formed. -/
theorem wsOK_tail {c : Char} {l : Str} (h : wsOK (c :: l) = true) :
    wsOK l = true := by
  cases l with
  | nil => rfl
  | cons d t =>
    rw [wsOK] at h
    simp only [Bool.and_eq_true] at h
    exact h.2

/-- Prepending a non-space to a whitespace-well-formed string keeps it
well-formed. -/
theorem wsOK_cons_not_space {c : Char} {l : Str} (hc : isSpaceCh c = false)
    (h : wsOK l = true) : wsOK (c :: l) = true := by
  cases l with
  | nil => simp [wsOK, hc]
  | cons d t =>
    rw [wsOK]
    simp [hc, h]

/-- Prepending a space to a whitespace-well-formed string with a
non-space head keeps it well-formed. -/
theorem wsOK_cons_space {l : Str} (h : wsOK l = true)
    (hhead : ∀ d t, l = d :: t → isSpaceCh d = false) :
    wsOK (' ' :: l) = true := by
  cases l with
  | nil => decide
  | cons d t =>
    rw [wsOK]
    simp [hhead d t rfl, h]

/-- The collapse pass in skip mode never emits a leading space. -/
theorem collapseAux_true_head : ∀ (l : Str) {c : Char} {t : Str},
    collapseAux true l = c :: t → isSpaceCh c = false := by
  intro l
  induction l with
  | nil => intro c t h; cases h
  | cons x xs ih =>
    intro c t h
    rw [collapseAux] at h
    by_cases hx : isSpaceCh x = true
    · rw [if_pos hx] at h
      exact ih h
    · rw [if_neg hx] at h
      cases h
      simpa using hx

/-- Every collapse result is whitespace-well-formed. -/
theorem wsOK_collapseAux : ∀ (l : Str) (b : Bool), wsOK (collapseAux b l) = true := by
  intro l
  induction l with
  | nil => intro b; rfl
  | cons c cs ih =>
    intro b
    rw [collapseAux]
    by_cases hsp : isSpaceCh c = true
    · rw [if_pos hsp]
      cases b with
      | true => exact ih true
      | false =>
        simp only [Bool.false_eq_true, if_false]
        exact wsOK_cons_space (ih true) (fun d t hdt => collapseAux_true_head cs hdt)
    · rw [if_neg hsp]
      exact wsOK_cons_not_space (by simpa using hsp) (ih false)

/-- Whitespace well-formedness restricts to front segments. -/
theorem wsOK_append_left : ∀ (v w : Str), wsOK (v ++ w) = true → wsOK v = true := by
  intro v
  induction v with
  | nil => intro w _; rfl
  | cons c v' ih =>
    intro w h
    cases v' with
    | nil =>
      cases w with
      | nil => simpa using h
      | cons e t =>
        rw [List.cons_append, List.nil_append, wsOK] at h
        simp only [Bool.and_eq_true] at h
        have h1 := h.1
        rw [wsOK]
        simp only [Bool.or_eq_true, Bool.and_eq_true] at h1 ⊢
        rcases h1 with h2 | h2
        · exact Or.inl h2
        · exact Or.inr h2.1
    | cons d t' =>
      rw [List.cons_append, List.cons_append, wsOK] at h
      simp only [Bool.and_eq_true] at h
      obtain ⟨h1, h2⟩ := h
      rw [wsOK]
      simp only [Bool.and_eq_true]
      refine ⟨h1, ?_⟩
      exact ih w (by rw [List.cons_append]; exact h2)

/-- Whitespace well-formedness restricts to back segments. -/
theorem wsOK_append_right : ∀ (v w : Str), wsOK (v ++ w) = true → wsOK w = true := by
  intro v
  induction v with
  | nil => intro w h; exact h
  | cons c v' ih =>
    intro w h
    rw [List.cons_append] at h
    exact ih w (wsOK_tail h)

/-- Stripping preserves whitespace well-formedness. -/
theorem wsOK_stripWS {l : Str} (h : wsOK l = true) : wsOK (stripWS l) = true := by
  have h1 : wsOK (l.dropWhile isSpaceCh) = true := by
    have := List.takeWhile_append_dropWhile isSpaceCh l
    exact wsOK_append_right (l.takeWhile isSpaceCh) _ (by rw [this]; exact h)
  obtain ⟨R, hdec⟩ := stripWS_decomp l
  exact wsOK_append_left _ _ (by rw [← hdec]; exact h1)

/-- On a whitespace-well-formed string the collapse pass is the identity
(and also in skip mode when the head is not a space). -/
theorem collapseAux_id_of_wsOK : ∀ (l : Str), wsOK l = true →
    (collapseAux false l = l ∧
      ((∀ c t, l = c :: t → isSpaceCh c = false) → collapseAux true l = l)) := by
  intro l
  induction l with
  | nil => exact fun _ => ⟨rfl, fun _ => rfl⟩
  | cons c cs ih =>
    intro h
    have hcs := wsOK_tail h
    obtain ⟨ih1, ih2⟩ := ih hcs
    by_cases hsp : isSpaceCh c = true
    · have hc : c = ' ' := by
        cases cs with
        | nil =>
          rw [wsOK] at h
          simp only [Bool.or_eq_true] at h
          rcases h with h1 | h1
          · rw [hsp] at h1; cases h1
          · exact beq_iff_eq.mp h1
        | cons d t =>
          rw [wsOK] at h
          simp only [Bool.and_eq_true, Bool.or_eq_true] at h
          rcases h.1 with h2 | h2
          · rw [hsp] at h2; cases h2
          · exact beq_iff_eq.mp h2.1
      have hhead : ∀ d t, cs = d :: t → isSpaceCh d = false := by
        intro d t hdt
        subst hdt
        rw [wsOK] at h
        simp only [Bool.and_eq_true, Bool.or_eq_true] at h
        rcases h.1 with h2 | h2
        · rw [hsp] at h2; cases h2
        · simpa using h2.2
      refine ⟨?_, ?_⟩
      · rw [collapseAux, if_pos hsp]
        simp only [Bool.false_eq_true, if_false]
        rw [ih2 hhead, hc]
      · intro hh
        have := hh c cs rfl
        rw [this] at hsp
        cases hsp
    · refine ⟨?_, ?_⟩
      · rw [collapseAux, if_neg hsp, ih1]
      · intro _
        rw [collapseAux, if_neg hsp, ih1]

/-- Collapsing after a collapse-and-strip pass changes nothing. -/
theorem collapse_strip_collapse (z : Str) :
    collapseWS (stripWS (collapseWS z)) = stripWS (collapseWS z) :=
  (collapseAux_id_of_wsOK _ (wsOK_stripWS (wsOK_collapseAux z false))).1

/-- C6 counterexample.  Normalization is not idempotent: deleting the
match `3 cups` from `"2 3 cups oz"` creates the fresh quantity pattern
`"2 oz"`, which a second pass deletes entirely —
`normalize("2 3 cups oz") = "2 oz"` but `normalize("2 oz") = ""`. -/
theorem C6_not_idempotent_counterexample :
    normalizeIngredient (str "2 3 cups oz") = str "2 oz" ∧
    normalizeIngredient (normalizeIngredient (str "2 3 cups oz")) = [] ∧
    normalizeIngredient (normalizeIngredient (str "2 3 cups oz")) ≠
      normalizeIngredient (str "2 3 cups oz") := by decide

/-- C6 amended.  Normalization is idempotent on every input containing no
digit character: without a leading digit the quantity pattern can never
match, so the second pass reduces to lower-casing, whitespace collapsing
and stripping, each of which fixes the output of the first pass.  On
inputs with digits idempotence can fail, because deleting one
quantity/unit match can splice the text into a new match (see the
counterexample). -/
theorem C6_normalize_idem_of_no_digit (l : Str)
    (h : ∀ c ∈ l, c.isDigit = false) :
    normalizeIngredient (normalizeIngredient l) = normalizeIngredient l := by
  have hlow : ∀ c ∈ l.map Char.toLower, c.isDigit = false := by
    intro c hc
    obtain ⟨c0, hc0, rfl⟩ := List.mem_map.mp hc
    exact toLower_isDigit c0 (h c0 hc0)
  have hs1 : ∀ c ∈ stripWS (l.map Char.toLower), c.isDigit = false :=
    fun c hc => hlow c (mem_stripWS hc)
  have hNl : normalizeIngredient l =
      stripWS (collapseWS (stripWS (l.map Char.toLower))) := by
    unfold normalizeIngredient
    rw [subQuant_of_no_digit _ hs1]
  have hychar : ∀ c ∈ normalizeIngredient l,
      c = ' ' ∨ ∃ c0 ∈ l, c = Char.toLower c0 := by
    intro c hc
    rw [hNl] at hc
    rcases mem_collapseAux false _ (mem_stripWS hc) with h1 | h1
    · exact Or.inl h1
    · obtain ⟨c0, hc0, rfl⟩ := List.mem_map.mp (mem_stripWS h1)
      exact Or.inr ⟨c0, hc0, rfl⟩
  have hyfix : (normalizeIngredient l).map Char.toLower = normalizeIngredient l := by
    refine map_id_of_fix _ ?_
    intro c hc
    rcases hychar c hc with h1 | ⟨c0, _, rfl⟩
    · rw [h1]; decide
    · exact toLower_toLower c0
  have hydig : ∀ c ∈ normalizeIngredient l, c.isDigit = false := by
    intro c hc
    rcases hychar c hc with h1 | ⟨c0, hc0, rfl⟩
    · rw [h1]; decide
    · exact toLower_isDigit c0 (h c0 hc0)
  have hystrip : stripWS (normalizeIngredient l) = normalizeIngredient l := by
    rw [hNl]
    exact stripWS_idem _
  have hycoll : collapseWS (normalizeIngredient l) = normalizeIngredient l := by
    rw [hNl]
    exact collapse_strip_collapse _
  conv =>
    lhs
    rw [normalizeIngredient]
  rw [hyfix, hystrip, subQuant_of_no_digit _ hydig, hycoll, hystrip]

/-- Witness for the amended C6 at a digit-free input with case and
whitespace noise. -/
theorem C6_normalize_idem_of_no_digit_witness :
    normalizeIngredient (normalizeIngredient (str "  Fresh  TOMATO ")) =
      normalizeIngredient (str "  Fresh  TOMATO ") :=
  C6_normalize_idem_of_no_digit (str "  Fresh  TOMATO ") (by decide)

end PantryOracle
